import Mathlib

/-!
# Verification of the MineSweeper CNF inference engine

Shallow embedding of `src/HW3/MineSweeperAI.py` (class `MineSweeperPlayer`).

Modelling conventions:
* A Python literal tuple `(row, col, polarity)` is `Lit := Nat × Nat × Bool`.
* A Python clause (a tuple of distinct literals) is `Clause := List Lit`.
  The program only ever builds duplicate-free clause tuples
  (`itertools.combinations` over distinct cells, and filters of such tuples),
  so clause-level set operations (`issubset`, `union`, `remove`) are modelled
  on duplicate-free lists.
* The Python sets `self.KB` and `self.KB0` are modelled as duplicate-free
  lists; Python's unspecified set-iteration order is modelled as list order
  (insertion order).  `set.add` is "append if absent", `set.remove` is
  `List.erase`.
* `tuple(set(...))` reorderings in `subsumption_checking` are modelled at the
  set level: the function returns the argument clause itself, so the `==`
  comparisons in `insert_clause_to_KB` compare clauses as sets of literals.
  When the returned clause is empty, the tuple `()` is falsy, and the
  caller's `if not strict_clause: continue` skips it — mirrored in `scanKB`.
-/

/-- A literal `(row, col, polarity)`: polarity `true` means "this cell is a
mine", `false` means "this cell is safe". -/
abbrev Lit := Nat × Nat × Bool

/-- The complement of a literal: same cell, opposite polarity.  In the source
this is written inline as `(literal[0], literal[1], not literal[2])`. -/
def negLit (l : Lit) : Lit := (l.1, l.2.1, !l.2.2)

/-- A clause: a disjunction of literals, stored as a (duplicate-free) tuple. -/
abbrev Clause := List Lit

/-- A cell `(row, col)` of the board. -/
abbrev Cell := Nat × Nat

/-- Set-inclusion of clauses, as in Python's `set(clause1).issubset(set(clause2))`. -/
def clsub (a b : Clause) : Prop := ∀ l ∈ a, l ∈ b

instance clsub.decidable (a b : Clause) : Decidable (clsub a b) :=
  List.decidableBAll _ a

/-- `subsumption_checking(clause1, clause2)` (MineSweeperAI.py lines 41-58):
returns the stricter clause (the subset) if one clause's literal set is
contained in the other's, else `none`.  The Python code returns
`tuple(set(clause1))`, a reordering of the argument; we model the result at
set level as the argument clause itself. -/
def subsumption_checking (c1 c2 : Clause) : Option Clause :=
  if clsub c1 c2 then some c1
  else if clsub c2 c1 then some c2
  else none

/-- `resolve(clause1, clause2)` (lines 60-87): if exactly one literal of
`clause1` has its exact complement in `clause2`, remove the pair and return
the union of the remainders; otherwise (zero or several complementary pairs)
return `none`. -/
def resolve (c1 c2 : Clause) : Option Clause :=
  match c1.filter (fun l => decide (negLit l ∈ c2)) with
  | [l] => some ((c1.erase l) ∪ (c2.erase (negLit l)))
  | _ => none

/-- State of the clause store: the active knowledge base `KB` and the
committed-facts ledger `KB0` (both Python sets of clause tuples). -/
structure KBState where
  KB : List Clause
  KB0 : List Clause
deriving DecidableEq

/-- The result of `c.filter (· ≠ negLit L)`: the clause with the complement of
`L` removed, as built by `unit_propagation`'s comprehension
`tuple(literal for literal in clause2 if literal != (...))`. -/
def shortenBy (L : Lit) (c : Clause) : Clause :=
  c.filter (fun x => decide (x ≠ negLit L))

/-- The multi-literal branch of `unit_propagation` (lines 125-131): scan the
committed facts `KB0` in order; at the first fact whose literal occurs in the
incoming clause, `break` (discarding nothing already collected); for a fact
whose complement occurs in the clause, collect the shortened clause.
A committed fact is read through `clause0[0]`; an empty committed clause
would raise `IndexError` in Python and never occurs, we skip it. -/
def kb0ScanAdds (c : Clause) : List Clause → List Clause
  | [] => []
  | c0 :: rest =>
    match c0 with
    | [] => kb0ScanAdds c rest
    | f :: _ =>
      if f ∈ c then []
      else if negLit f ∈ c then shortenBy f c :: kb0ScanAdds c rest
      else kb0ScanAdds c rest

/-- Python `set.add` over the KB: append the clause unless already present. -/
def pyAdd (KB : List Clause) (c : Clause) : List Clause :=
  if c ∈ KB then KB else KB ++ [c]

/-- Fold Python `set.add` over a collected `clauses_to_add` set. -/
def pyAddAll (KB : List Clause) (cs : List Clause) : List Clause :=
  cs.foldl pyAdd KB

/-- `unit_propagation(clause)` (lines 103-135), acting on the knowledge base.
For a single-literal clause `[L]`: delete every KB clause containing `L`
verbatim, and replace every KB clause containing `negLit L` by its shortened
form.  For any other clause: collect the `KB0` ground-truth shortenings and
add them to KB.  The Python code collects `clauses_to_add`/`clauses_to_remove`
during the scan and applies them afterwards (adds, then removes; the two sets
are disjoint, so the order is immaterial). -/
def unit_propagation (KB KB0 : List Clause) (c : Clause) : List Clause :=
  match c with
  | [L] =>
      let keep := KB.filter (fun d => decide (L ∉ d ∧ negLit L ∉ d))
      let adds := (KB.filter (fun d => decide (L ∉ d ∧ negLit L ∈ d))).map (shortenBy L)
      pyAddAll keep adds
  | _ =>
      pyAddAll KB (kb0ScanAdds c KB0)

/-- The sequential resolution of the incoming clause against `KB0`
(lines 151-156): each successful resolution replaces the working clause; a
failed resolution — `None` or the empty tuple, both falsy under Python's
`if not new_clause` — stops the loop with the clause as it stands. -/
def resolveWithKB0 (c : Clause) : List Clause → Clause
  | [] => c
  | c0 :: rest =>
      match resolve c c0 with
      | none => c
      | some r => if r = [] then c else resolveWithKB0 r rest

/-- Outcome of the subsumption scan of `insert_clause_to_KB` (lines 158-168). -/
inductive ScanResult where
  /-- No clause in KB is comparable to the incoming clause. -/
  | noMatch : ScanResult
  /-- An existing clause is stricter: the insertion is skipped (`return None`). -/
  | reject : ScanResult
  /-- The incoming clause is stricter than `d`: `d` is marked for removal. -/
  | remove (d : Clause) : ScanResult
deriving DecidableEq

/-- The subsumption scan: walk KB in order; at the first comparable clause,
either mark it for removal (`strict_clause == clause`) or reject the
insertion (`strict_clause == clause2`).  Python's guard at line 162 is
`if not strict_clause: continue`, and `subsumption_checking` can return the
*empty tuple* (when the subset side is the empty clause), which is falsy just
like `None`: such a result is skipped and the scan continues. -/
def scanKB (c : Clause) : List Clause → ScanResult
  | [] => .noMatch
  | d :: rest =>
      match subsumption_checking c d with
      | none => scanKB c rest
      | some e =>
        if e = [] then scanKB c rest
        else if e = c then .remove d else .reject

/-- `insert_clause_to_KB(clause)` (lines 137-173): skip if an identical clause
exists in KB or KB0; run unit propagation; resolve sequentially against KB0;
then the subsumption scan decides between rejecting the clause, removing one
subsumed clause, or neither; finally `KB.add(clause)` (a no-op if present). -/
def insert_clause_to_KB (s : KBState) (c : Clause) : KBState :=
  if c ∈ s.KB ∨ c ∈ s.KB0 then s
  else
    let KB1 := unit_propagation s.KB s.KB0 c
    let c' := resolveWithKB0 c s.KB0
    match scanKB c' KB1 with
    | .reject => { s with KB := KB1 }
    | .remove d => { s with KB := pyAdd (KB1.erase d) c' }
    | .noMatch => { s with KB := pyAdd KB1 c' }

/-- All combinations of `k` elements of a list, in the lexicographic
position order produced by `itertools.combinations`. -/
def combinations : Nat → List Cell → List (List Cell)
  | 0, _ => [[]]
  | _ + 1, [] => []
  | k + 1, x :: xs => (combinations k xs).map (x :: ·) ++ combinations (k + 1) xs

/-- The positive literal of a cell (`(cell[0], cell[1], True)`). -/
def posLit (cell : Cell) : Lit := (cell.1, cell.2, true)

/-- The negative literal of a cell (`(cell[0], cell[1], False)`). -/
def negCellLit (cell : Cell) : Lit := (cell.1, cell.2, false)

/-- `generate_clauses(unmarked_neighbors, n)` (lines 175-206): translate a
hint "`n` mines among these `m` cells" into clauses and insert each one.
`n == m`: the `m` positive unit clauses; `n == 0`: the `m` negative unit
clauses; otherwise all `C(m, m-n+1)` all-positive and all `C(m, n+1)`
all-negative combination clauses, in that order. -/
def generate_clauses (s : KBState) (cells : List Cell) (n : Nat) : KBState :=
  let m := cells.length
  if n = m then
    cells.foldl (fun st cell => insert_clause_to_KB st [posLit cell]) s
  else if n = 0 then
    cells.foldl (fun st cell => insert_clause_to_KB st [negCellLit cell]) s
  else
    let s1 := (combinations (m - n + 1) cells).foldl
      (fun st combo => insert_clause_to_KB st (combo.map posLit)) s
    (combinations (n + 1) cells).foldl
      (fun st combo => insert_clause_to_KB st (combo.map negCellLit)) s1

/-- `is_stuck()` (lines 219-230): append the current KB size to the history,
cap the history at 5 entries (evicting the oldest), and report stuck iff the
history holds 5 entries that are all equal (`len(set(h)) == 1 and len(h) == 5`).
Returns the verdict together with the updated history. -/
def is_stuck (hist : List Nat) (kbLen : Nat) : Bool × List Nat :=
  let h := hist ++ [kbLen]
  let h := if 5 < h.length then h.drop 1 else h
  (decide (h.dedup.length = 1 ∧ h.length = 5), h)

/-- `get_single_clause_count()` (lines 208-217): the source computes the
number of single-literal clauses in KB into a local variable but has **no
return statement**, so the call evaluates to Python `None`, modelled as
`none`. -/
def get_single_clause_count (KB : List Clause) : Option Nat :=
  let _single_clause_count := (KB.filter (fun c => decide (c.length = 1))).length
  none

/-- Python truthiness of an `Optional[int]`: `None` and `0` are falsy. -/
def pyTruthyOptNat : Option Nat → Bool
  | none => false
  | some n => !(n == 0)

/-- The per-turn agent state used by `game_move`: the clause store plus the
KB-length history consumed by `is_stuck`. -/
structure AgentState where
  store : KBState
  hist : List Nat
deriving DecidableEq

/-- The guard of `game_move` (lines 272-273) deciding whether
`make_safe_guess` is invoked:
`if self.is_stuck() and not single_clause_count:` where
`single_clause_count = self.get_single_clause_count()`. -/
def game_move_calls_guess (s : AgentState) : Bool :=
  let single_clause_count := get_single_clause_count s.store.KB
  (is_stuck s.hist s.store.KB.length).1 && !(pyTruthyOptNat single_clause_count)

/-- Whether KB contains a single-literal clause. -/
def hasSingleLiteralClause (KB : List Clause) : Bool :=
  KB.any (fun c => decide (c.length = 1))

/-- The subsumption-minimality invariant claimed of KB: no clause is a strict
superset, as a set of literals, of another clause in KB. -/
def StrictSupersetFree (KB : List Clause) : Prop :=
  ∀ c ∈ KB, ∀ d ∈ KB, ¬(clsub c d ∧ ¬clsub d c)

instance (KB : List Clause) : Decidable (StrictSupersetFree KB) :=
  List.decidableBAll _ KB

/-! ### Basic lemmas about literals and clause-set operations -/

theorem negLit_negLit (l : Lit) : negLit (negLit l) = l := by
  obtain ⟨r, c, b⟩ := l
  simp [negLit]

theorem negLit_ne (l : Lit) : negLit l ≠ l := by
  obtain ⟨r, c, b⟩ := l
  simp [negLit]

theorem clsub_refl (c : Clause) : clsub c c := fun _ hl => hl

theorem mem_shortenBy {L : Lit} {c : Clause} {x : Lit} :
    x ∈ shortenBy L c ↔ x ∈ c ∧ x ≠ negLit L := by
  simp [shortenBy]

theorem mem_pyAdd {KB : List Clause} {c x : Clause} :
    x ∈ pyAdd KB c ↔ x ∈ KB ∨ x = c := by
  by_cases h : c ∈ KB
  · simp only [pyAdd, if_pos h]
    constructor
    · exact Or.inl
    · rintro (hx | rfl)
      · exact hx
      · exact h
  · simp [pyAdd, if_neg h]

theorem mem_pyAddAll {cs : List Clause} {KB : List Clause} {x : Clause} :
    x ∈ pyAddAll KB cs ↔ x ∈ KB ∨ x ∈ cs := by
  induction cs generalizing KB with
  | nil => simp [pyAddAll]
  | cons a t ih =>
    have : pyAddAll KB (a :: t) = pyAddAll (pyAdd KB a) t := rfl
    rw [this, ih, mem_pyAdd]
    simp only [List.mem_cons]
    tauto

theorem pyAddAll_eq_self {cs KB : List Clause} (h : ∀ a ∈ cs, a ∈ KB) :
    pyAddAll KB cs = KB := by
  induction cs with
  | nil => rfl
  | cons a t ih =>
    have ha : pyAdd KB a = KB := by simp [pyAdd, h a (by simp)]
    have : pyAddAll KB (a :: t) = pyAddAll (pyAdd KB a) t := rfl
    rw [this, ha]
    exact ih fun b hb => h b (by simp [hb])

/-! ### Lemmas about `subsumption_checking` and the subsumption scan -/

theorem subsumption_checking_left {c d : Clause} (h : clsub c d) :
    subsumption_checking c d = some c := by
  simp [subsumption_checking, h]

theorem subsumption_checking_none {c d : Clause} (h1 : ¬clsub c d) (h2 : ¬clsub d c) :
    subsumption_checking c d = none := by
  simp [subsumption_checking, h1, h2]

theorem subsumption_checking_some {c d e : Clause} (h : subsumption_checking c d = some e) :
    (clsub c d ∧ e = c) ∨ (¬clsub c d ∧ clsub d c ∧ e = d) := by
  unfold subsumption_checking at h
  split at h
  · exact Or.inl ⟨by assumption, (Option.some.inj h).symm⟩
  · split at h
    · exact Or.inr ⟨by assumption, by assumption, (Option.some.inj h).symm⟩
    · cases h

/-- When the incoming clause is nonempty and no stored clause is a subset of
it, the subsumption scan either finds nothing, or removes the first superset
of `c`. -/
theorem scanKB_cases {c : Clause} (KB : List Clause) (hc : c ≠ [])
    (h : ∀ d ∈ KB, ¬clsub d c) :
    (scanKB c KB = .noMatch ∧ ∀ d ∈ KB, ¬clsub c d) ∨
    (∃ d₀, d₀ ∈ KB ∧ scanKB c KB = .remove d₀ ∧ clsub c d₀) := by
  induction KB with
  | nil => exact Or.inl ⟨rfl, by simp⟩
  | cons d t ih =>
    by_cases hcd : clsub c d
    · right
      refine ⟨d, by simp, ?_, hcd⟩
      simp [scanKB, subsumption_checking_left hcd, hc]
    · have hdc : ¬clsub d c := h d (by simp)
      have hstep : scanKB c (d :: t) = scanKB c t := by
        simp [scanKB, subsumption_checking_none hcd hdc]
      rcases ih (fun e he => h e (by simp [he])) with ⟨h1, h2⟩ | ⟨d₀, hmem, heq, hsub⟩
      · left
        refine ⟨hstep ▸ h1, ?_⟩
        intro e he
        rcases List.mem_cons.1 he with rfl | he
        · exact hcd
        · exact h2 e he
      · right
        exact ⟨d₀, by simp [hmem], hstep ▸ heq, hsub⟩

theorem scanKB_remove {c : Clause} {KB : List Clause} {d : Clause}
    (h : scanKB c KB = .remove d) : d ∈ KB ∧ clsub c d := by
  induction KB with
  | nil => cases h
  | cons d' t ih =>
    unfold scanKB at h
    split at h
    · have := ih h
      exact ⟨by simp [this.1], this.2⟩
    · rename_i e hsc
      split at h
      · have := ih h
        exact ⟨by simp [this.1], this.2⟩
      · split at h
        · rename_i he
          cases h
          rcases subsumption_checking_some hsc with ⟨h1, _⟩ | ⟨_, _, h3⟩
          · exact ⟨by simp, h1⟩
          · have hdc : d = c := by rw [← h3, he]
            subst hdc
            exact ⟨by simp, clsub_refl _⟩
        · cases h

theorem scanKB_reject {c : Clause} {KB : List Clause}
    (h : scanKB c KB = .reject) : ∃ d ∈ KB, clsub d c ∧ ¬clsub c d := by
  induction KB with
  | nil => cases h
  | cons d' t ih =>
    unfold scanKB at h
    split at h
    · obtain ⟨d, hd, h1, h2⟩ := ih h
      exact ⟨d, by simp [hd], h1, h2⟩
    · rename_i e hsc
      split at h
      · obtain ⟨d, hd, h1, h2⟩ := ih h
        exact ⟨d, by simp [hd], h1, h2⟩
      · split at h
        · cases h
        · rename_i he
          rcases subsumption_checking_some hsc with ⟨h1, h2⟩ | ⟨h1, h2, _⟩
          · exact absurd h2 he
          · exact ⟨d', by simp, h2, h1⟩

/-! ### Lemmas about `unit_propagation`, `kb0ScanAdds` and `resolveWithKB0` -/

theorem mem_unit_propagation_single {KB KB0 : List Clause} {L : Lit} {x : Clause} :
    x ∈ unit_propagation KB KB0 [L] ↔
      (x ∈ KB ∧ L ∉ x ∧ negLit L ∉ x) ∨
      (∃ d ∈ KB, L ∉ d ∧ negLit L ∈ d ∧ x = shortenBy L d) := by
  unfold unit_propagation
  rw [mem_pyAddAll]
  simp only [List.mem_filter, List.mem_map, decide_eq_true_eq]
  constructor
  · rintro (⟨h1, h2⟩ | ⟨d, ⟨hd1, hd2⟩, hd3⟩)
    · exact Or.inl ⟨h1, h2⟩
    · exact Or.inr ⟨d, hd1, hd2.1, hd2.2, hd3.symm⟩
  · rintro (⟨h1, h2⟩ | ⟨d, hd1, hd2, hd3, hd4⟩)
    · exact Or.inl ⟨h1, h2⟩
    · exact Or.inr ⟨d, ⟨hd1, hd2, hd3⟩, hd4.symm⟩

theorem unit_propagation_nil (KB KB0 : List Clause) :
    unit_propagation KB KB0 [] = pyAddAll KB (kb0ScanAdds [] KB0) := rfl

theorem unit_propagation_multi (KB KB0 : List Clause) (a b : Lit) (t : List Lit) :
    unit_propagation KB KB0 (a :: b :: t) =
      pyAddAll KB (kb0ScanAdds (a :: b :: t) KB0) := rfl

/-- Every clause collected by the `KB0` ground-truth scan is a shortening of
the incoming clause by the complement of some committed literal occurring in
it. -/
theorem kb0ScanAdds_shape {c : Clause} {KB0 : List Clause} :
    ∀ x ∈ kb0ScanAdds c KB0, ∃ f, negLit f ∈ c ∧ x = shortenBy f c := by
  induction KB0 with
  | nil => simp [kb0ScanAdds]
  | cons c0 rest ih =>
    intro x hx
    unfold kb0ScanAdds at hx
    split at hx
    · exact ih x hx
    · rename_i f fs
      split at hx
      · cases hx
      · split at hx
        · rename_i hnf
          rcases List.mem_cons.1 hx with rfl | hx
          · exact ⟨f, hnf, rfl⟩
          · exact ih x hx
        · exact ih x hx

theorem resolveWithKB0_nil (c : Clause) : resolveWithKB0 c [] = c := rfl

theorem resolveWithKB0_ne_nil {c : Clause} {l : List Clause} (h : c ≠ []) :
    resolveWithKB0 c l ≠ [] := by
  induction l generalizing c with
  | nil => exact h
  | cons c0 rest ih =>
    unfold resolveWithKB0
    cases hr : resolve c c0 with
    | none => exact h
    | some r =>
      by_cases hr0 : r = []
      · simp [hr0, h]
      · simp only [if_neg hr0]
        exact ih hr0

/-- Resolving a single-literal clause against a ledger of single-literal
clauses never changes it: the only possible resolvent is the empty clause,
which Python's `if not new_clause` treats as a failure. -/
theorem resolveWithKB0_single {L : Lit} {l : List Clause}
    (h : ∀ d ∈ l, d.length = 1) : resolveWithKB0 [L] l = [L] := by
  induction l with
  | nil => rfl
  | cons c0 rest ih =>
    obtain ⟨f, hf⟩ : ∃ f, c0 = [f] := by
      have := h c0 (by simp)
      cases c0 with
      | nil => simp at this
      | cons a t =>
        cases t with
        | nil => exact ⟨a, rfl⟩
        | cons b t' => simp at this
    subst hf
    by_cases hLf : negLit L = f
    · subst hLf
      have hres : resolve [L] [negLit L] = some [] := by
        have hfilter : [L].filter (fun l => decide (negLit l ∈ [negLit L])) = [L] := by
          simp
        rw [resolve, hfilter]
        simp [List.erase_cons]
      rw [resolveWithKB0, hres]
      simp
    · have hfilter : [L].filter (fun l => decide (negLit l ∈ [f])) = [] := by
        simp [hLf]
      have hres : resolve [L] [f] = none := by
        rw [resolve, hfilter]
      rw [resolveWithKB0, hres]

/-! ### Combinatorics of `combinations` -/

theorem combinations_length (k : Nat) (l : List Cell) :
    (combinations k l).length = Nat.choose l.length k := by
  induction l generalizing k with
  | nil => cases k <;> simp [combinations]
  | cons x xs ih =>
    cases k with
    | zero => simp [combinations]
    | succ k =>
      simp only [combinations, List.length_append, List.length_map, ih,
        List.length_cons, Nat.choose_succ_succ]

/-- The eight neighbours of cell `(1,1)` on a 3×3 board, in reading order, as
returned to `generate_clauses` in the end-to-end scenario. -/
def cells8 : List Cell := [(0, 0), (0, 1), (0, 2), (1, 0), (1, 2), (2, 0), (2, 1), (2, 2)]

/-! ### Claim theorems -/

/-- **C1, counterexample.**  Subsumption minimality is *not* an invariant of
the reachable KB states: inserting `{¬L, A}`, then `{A, B}`, then the unit
`{L}` (for `L = (0,0,mine)`, `A = (1,1,mine)`, `B = (2,2,mine)`) into the
empty store leaves both `{A}` (the unit-propagation shortening of `{¬L, A}`)
and its strict superset `{A, B}` in KB. -/
theorem minimality_fails_on_reachable_state :
    ¬ StrictSupersetFree
      (insert_clause_to_KB (insert_clause_to_KB (insert_clause_to_KB ⟨[], []⟩
          [(0, 0, false), (1, 1, true)])
          [(1, 1, true), (2, 2, true)])
          [(0, 0, true)]).KB := by decide

/-- **C2.**  The guard of `game_move` (lines 272–273) is
`if self.is_stuck() and not single_clause_count:` — but
`get_single_clause_count` (lines 208–217) has no `return` statement, so
`single_clause_count` is always `None` and `not single_clause_count` is
always true.  Hence `make_safe_guess` is invoked in a state whose KB holds
the single-literal clause `{(0,0,safe)}`, contradicting the claim that the
guesser runs only when no single-literal clause exists. -/
theorem game_move_guard_ignores_unit_clauses :
    game_move_calls_guess ⟨⟨[[(0, 0, false)]], []⟩, [1, 1, 1, 1]⟩ = true ∧
    hasSingleLiteralClause [[(0, 0, false)]] = true ∧
    get_single_clause_count [[(0, 0, false)]] = none ∧
    (is_stuck [1, 1, 1, 1] 1).1 = true := by decide

set_option maxRecDepth 20000 in
/-- **C3.**  Hint-to-CNF generation: for `0 < n < m` the generator enumerates
exactly the `C(m, m−n+1)` all-positive and `C(m, n+1)` all-negative
combination clauses and passes each to `insert_clause_to_KB`; on the 3×3
end-to-end scenario (`m = 8` neighbours of `(1,1)`, `n = 2`), starting from
the empty store, the resulting KB consists of exactly the 8 positive
7-literal clauses followed by the 56 negative 3-literal clauses, with no
duplicates. -/
theorem generate_clauses_hint_cnf :
    (∀ (cells : List Cell) (n : Nat), 0 < n → n < cells.length →
      (combinations (cells.length - n + 1) cells).length
          = Nat.choose cells.length (cells.length - n + 1) ∧
      (combinations (n + 1) cells).length = Nat.choose cells.length (n + 1)) ∧
    (generate_clauses ⟨[], []⟩ cells8 2).KB
        = (combinations 7 cells8).map (List.map posLit)
          ++ (combinations 3 cells8).map (List.map negCellLit) ∧
    (combinations 7 cells8).length = 8 ∧
    (combinations 3 cells8).length = 56 ∧
    (∀ cl ∈ (combinations 7 cells8).map (List.map posLit),
        cl.length = 7 ∧ ∀ l ∈ cl, l.2.2 = true) ∧
    (∀ cl ∈ (combinations 3 cells8).map (List.map negCellLit),
        cl.length = 3 ∧ ∀ l ∈ cl, l.2.2 = false) ∧
    (generate_clauses ⟨[], []⟩ cells8 2).KB.Nodup := by
  refine ⟨fun cells n _ _ => ⟨combinations_length _ _, combinations_length _ _⟩, ?_⟩
  decide

/-- Witness for the quantified part of `generate_clauses_hint_cnf`,
instantiated at the end-to-end scenario `m = 8`, `n = 2`. -/
theorem generate_clauses_hint_cnf_witness :
    (combinations (cells8.length - 2 + 1) cells8).length
        = Nat.choose cells8.length (cells8.length - 2 + 1) ∧
    (combinations (2 + 1) cells8).length = Nat.choose cells8.length (2 + 1) :=
  generate_clauses_hint_cnf.1 cells8 2 (by decide) (by decide)

/-- **C6, counterexample.**  A multi-literal clause containing, verbatim, the
literal of a committed fact in KB0 is *not* discarded: with
`KB0 = {{(0,0,mine)}}` and empty KB, inserting `{(0,0,mine), (1,1,mine)}`
stores that clause in KB (the scan of KB0 merely `break`s). -/
theorem committed_fact_clause_inserted_anyway :
    [(0, 0, true), (1, 1, true)]
      ∈ (insert_clause_to_KB ⟨[], [[(0, 0, true)]]⟩
          [(0, 0, true), (1, 1, true)]).KB := by decide

/-- **C7, counterexample.**  A subsumption rejection does *not* leave KB
unchanged: with `KB = {{(5,5,mine)}}` and `KB0 = {{(9,9,mine)}}`, inserting
`{(9,9,safe), (5,5,mine), (6,6,mine)}` final-resolves to
`{(5,5,mine), (6,6,mine)}`, which the stored subset `{(5,5,mine)}` rejects —
yet the unit-propagation shortening `{(5,5,mine), (6,6,mine)}` has already
been added to KB and persists. -/
theorem reject_leaves_kb_mutated :
    (insert_clause_to_KB ⟨[[(5, 5, true)]], [[(9, 9, true)]]⟩
        [(9, 9, false), (5, 5, true), (6, 6, true)]).KB ≠ [[(5, 5, true)]] ∧
    resolveWithKB0 [(9, 9, false), (5, 5, true), (6, 6, true)] [[(9, 9, true)]]
        = [(5, 5, true), (6, 6, true)] ∧
    clsub [(5, 5, true)] [(5, 5, true), (6, 6, true)] ∧
    ¬ clsub [(5, 5, true), (6, 6, true)] [(5, 5, true)] := by decide

/-- **C8, counterexample.**  Insertion is not idempotent: with
`KB = {{A,B,C}, {A,B,D}}`, `KB0 = {{g}}` (`A,B,C,D` the mines `(1,1)`,
`(2,2)`, `(3,3)`, `(4,4)` and `g = (9,9,mine)`), inserting `{¬g, A, B}`
twice removes both stored supersets of the resolvent `{A, B}` — one per
call — while inserting it once removes only the first. -/
theorem insert_twice_differs_from_once :
    insert_clause_to_KB (insert_clause_to_KB
        ⟨[[(1, 1, true), (2, 2, true), (3, 3, true)],
          [(1, 1, true), (2, 2, true), (4, 4, true)]], [[(9, 9, true)]]⟩
        [(9, 9, false), (1, 1, true), (2, 2, true)])
        [(9, 9, false), (1, 1, true), (2, 2, true)]
      ≠ insert_clause_to_KB
        ⟨[[(1, 1, true), (2, 2, true), (3, 3, true)],
          [(1, 1, true), (2, 2, true), (4, 4, true)]], [[(9, 9, true)]]⟩
        [(9, 9, false), (1, 1, true), (2, 2, true)] := by decide

/-- **C9, counterexample.**  The empty clause is reachable: inserting the
unit `{(0,0,safe)}` and then the complementary unit `{(0,0,mine)}` into the
empty store leaves KB holding the zero-literal clause: unit propagation
shortens `{(0,0,safe)}` to `()`; the subsumption scan then skips the stored
empty clause (its returned empty tuple is falsy) and appends the incoming
unit, so KB ends as `{(), {(0,0,mine)}}` with the empty clause stored. -/
theorem empty_clause_reachable :
    ([] : Clause) ∈ (insert_clause_to_KB (insert_clause_to_KB ⟨[], []⟩
        [(0, 0, false)]) [(0, 0, true)]).KB := by decide

/-! ### Structural lemmas about `insert_clause_to_KB` and `resolve` -/

/-- Unfolding of `insert_clause_to_KB` when the identical-clause check fails. -/
theorem insert_spec (s : KBState) (c : Clause) (h : ¬(c ∈ s.KB ∨ c ∈ s.KB0)) :
    insert_clause_to_KB s c =
      match scanKB (resolveWithKB0 c s.KB0) (unit_propagation s.KB s.KB0 c) with
      | .reject => { s with KB := unit_propagation s.KB s.KB0 c }
      | .remove d => { s with
          KB := pyAdd ((unit_propagation s.KB s.KB0 c).erase d) (resolveWithKB0 c s.KB0) }
      | .noMatch => { s with KB := pyAdd (unit_propagation s.KB s.KB0 c) (resolveWithKB0 c s.KB0) } := by
  unfold insert_clause_to_KB
  rw [if_neg h]

/-- `insert_clause_to_KB` never mutates the committed-fact ledger `KB0`. -/
theorem insert_KB0_unchanged (s : KBState) (c : Clause) :
    (insert_clause_to_KB s c).KB0 = s.KB0 := by
  by_cases h : c ∈ s.KB ∨ c ∈ s.KB0
  · unfold insert_clause_to_KB
    rw [if_pos h]
  · rw [insert_spec s c h]
    split <;> rfl

theorem filter_eq_singleton_of_unique {p : Lit → Bool} {a : List Lit} (ha : a.Nodup)
    {l : Lit} (hmem : l ∈ a) (hp : p l = true) (huniq : ∀ x ∈ a, p x = true → x = l) :
    a.filter p = [l] := by
  induction a with
  | nil => cases hmem
  | cons b t ih =>
    rcases List.mem_cons.1 hmem with rfl | hmem'
    · rw [List.filter_cons_of_pos hp]
      have ht : t.filter p = [] := by
        rw [List.filter_eq_nil_iff]
        intro x hx hpx
        have hxl := huniq x (by simp [hx]) hpx
        subst hxl
        exact (List.nodup_cons.1 ha).1 hx
      rw [ht]
    · have hbl : b ≠ l := by
        rintro rfl
        exact (List.nodup_cons.1 ha).1 hmem'
      have hpb : ¬p b = true := fun hpb => hbl (huniq b (by simp) hpb)
      rw [List.filter_cons_of_neg (by simpa using hpb)]
      exact ih (List.nodup_cons.1 ha).2 hmem' fun x hx hpx => huniq x (by simp [hx]) hpx

/-- Characterization of a successful resolution: there is a (unique) literal
of `c1` whose complement lies in `c2`, and the resolvent is the union of the
two clauses with the pair deleted. -/
theorem resolve_some_forward {a b r : Clause} (h : resolve a b = some r) :
    ∃ l, l ∈ a ∧ negLit l ∈ b ∧ (∀ x ∈ a, negLit x ∈ b → x = l) ∧
      r = (a.erase l) ∪ (b.erase (negLit l)) := by
  unfold resolve at h
  split at h
  · rename_i l hfe
    cases h
    have hl : l ∈ a.filter (fun x => decide (negLit x ∈ b)) := by
      rw [hfe]; simp
    have hla : l ∈ a ∧ negLit l ∈ b := by
      have := List.mem_filter.1 hl
      exact ⟨this.1, by simpa using this.2⟩
    refine ⟨l, hla.1, hla.2, ?_, rfl⟩
    intro x hx hbx
    have : x ∈ a.filter (fun x => decide (negLit x ∈ b)) :=
      List.mem_filter.2 ⟨hx, by simpa using hbx⟩
    rw [hfe] at this
    simpa using this
  · cases h

theorem resolve_some_backward {a b : Clause} (ha : a.Nodup) {l : Lit}
    (h1 : l ∈ a) (h2 : negLit l ∈ b) (h3 : ∀ x ∈ a, negLit x ∈ b → x = l) :
    resolve a b = some ((a.erase l) ∪ (b.erase (negLit l))) := by
  have hfe : a.filter (fun x => decide (negLit x ∈ b)) = [l] :=
    filter_eq_singleton_of_unique ha h1 (by simpa using h2)
      fun x hx hpx => h3 x hx (by simpa using hpx)
  unfold resolve
  rw [hfe]

/-- **C4.**  Unit propagation correctness: inserting the unit `{L}` into a KB
holding `{L, X}` deletes that clause entirely; inserting it into a KB holding
`{¬L, X}` replaces that clause by `{X}`.  (The unit `{L}` is not already
present — otherwise the insert is a no-op — and KB0 holds only unit clauses,
as the game loop maintains.) -/
theorem unit_propagation_on_insert (s : KBState) (L X : Lit)
    (hKB0 : ∀ d ∈ s.KB0, d.length = 1)
    (hXL : X ≠ L) (hXnL : X ≠ negLit L)
    (hLKB : [L] ∉ s.KB) (hLKB0 : [L] ∉ s.KB0) :
    ([L, X] ∈ s.KB → [L, X] ∉ (insert_clause_to_KB s [L]).KB) ∧
    ([negLit L, X] ∈ s.KB →
      [X] ∈ (insert_clause_to_KB s [L]).KB ∧
      [negLit L, X] ∉ (insert_clause_to_KB s [L]).KB) := by
  have hne : ¬([L] ∈ s.KB ∨ [L] ∈ s.KB0) := by
    rintro (h | h)
    exacts [hLKB h, hLKB0 h]
  have hc' : resolveWithKB0 [L] s.KB0 = [L] := resolveWithKB0_single hKB0
  have hL_not : ∀ x ∈ unit_propagation s.KB s.KB0 [L], L ∉ x := by
    intro x hx
    rcases mem_unit_propagation_single.1 hx with ⟨_, h2, _⟩ | ⟨d, _, hd2, _, rfl⟩
    · exact h2
    · exact fun hLx => hd2 (mem_shortenBy.1 hLx).1
  have hres : (insert_clause_to_KB s [L]).KB = unit_propagation s.KB s.KB0 [L] ∨
      (insert_clause_to_KB s [L]).KB
        = unit_propagation s.KB s.KB0 [L] ++ [[L]] := by
    rw [insert_spec s [L] hne, hc']
    cases hscan : scanKB [L] (unit_propagation s.KB s.KB0 [L]) with
    | reject => exact Or.inl rfl
    | noMatch =>
      right
      have : [L] ∉ unit_propagation s.KB s.KB0 [L] :=
        fun hmem => hL_not _ hmem (by simp)
      simp [pyAdd, this]
    | remove d =>
      exfalso
      obtain ⟨hd, hsub⟩ := scanKB_remove hscan
      exact hL_not d hd (hsub L (by simp))
  constructor
  · intro _ hmem
    rcases hres with h | h <;> rw [h] at hmem
    · exact hL_not _ hmem (by simp)
    · rcases List.mem_append.1 hmem with hmem | hmem
      · exact hL_not _ hmem (by simp)
      · simp at hmem
  · intro hnLX
    have hshort : shortenBy L [negLit L, X] = [X] := by
      simp [shortenBy, hXnL]
    have hXmem : [X] ∈ unit_propagation s.KB s.KB0 [L] := by
      rw [mem_unit_propagation_single]
      right
      refine ⟨[negLit L, X], hnLX, ?_, by simp, hshort.symm⟩
      intro hLmem
      rcases List.mem_cons.1 hLmem with h | h
      · exact negLit_ne L h.symm
      · simp at h
        exact hXL h.symm
    have hnLX_not : ∀ x ∈ unit_propagation s.KB s.KB0 [L], x ≠ [negLit L, X] := by
      intro x hx heq
      subst heq
      rcases mem_unit_propagation_single.1 hx with ⟨_, _, h3⟩ | ⟨d, _, _, _, hsh⟩
      · exact h3 (by simp)
      · have hmm : negLit L ∈ shortenBy L d :=
          hsh ▸ (by simp : negLit L ∈ [negLit L, X])
        exact (mem_shortenBy.1 hmm).2 rfl
    constructor
    · rcases hres with h | h <;> rw [h]
      · exact hXmem
      · exact List.mem_append.2 (Or.inl hXmem)
    · intro hmem
      rcases hres with h | h <;> rw [h] at hmem
      · exact hnLX_not _ hmem rfl
      · rcases List.mem_append.1 hmem with hmem | hmem
        · exact hnLX_not _ hmem rfl
        · simp at hmem

/-- Witness for `unit_propagation_on_insert` at `L = (0,0,mine)`,
`X = (1,1,mine)`: both scenarios of the claim, on one-clause KBs. -/
theorem unit_propagation_on_insert_witness :
    [(0, 0, true), (1, 1, true)]
        ∉ (insert_clause_to_KB ⟨[[(0, 0, true), (1, 1, true)]], []⟩ [(0, 0, true)]).KB ∧
    ([(1, 1, true)]
        ∈ (insert_clause_to_KB ⟨[[negLit (0, 0, true), (1, 1, true)]], []⟩ [(0, 0, true)]).KB ∧
      [negLit (0, 0, true), (1, 1, true)]
        ∉ (insert_clause_to_KB ⟨[[negLit (0, 0, true), (1, 1, true)]], []⟩ [(0, 0, true)]).KB) :=
  ⟨(unit_propagation_on_insert ⟨[[(0, 0, true), (1, 1, true)]], []⟩ (0, 0, true) (1, 1, true)
      (by decide) (by decide) (by decide) (by decide) (by decide)).1 (by decide),
   (unit_propagation_on_insert ⟨[[negLit (0, 0, true), (1, 1, true)]], []⟩ (0, 0, true) (1, 1, true)
      (by decide) (by decide) (by decide) (by decide) (by decide)).2 (by decide)⟩

/-- **C5.**  Resolution correctness: when the two clauses share exactly one
complementary pair, `resolve` returns the union of the two clauses with the
pair removed; with zero complementary pairs, or with two or more, it returns
`none`. -/
theorem resolve_characterization (a b : Clause) (ha : a.Nodup) (hb : b.Nodup) :
    (∀ l, l ∈ a → negLit l ∈ b → (∀ x ∈ a, negLit x ∈ b → x = l) →
      ∃ r, resolve a b = some r ∧
        ∀ x, x ∈ r ↔ (x ∈ a ∧ x ≠ l) ∨ (x ∈ b ∧ x ≠ negLit l)) ∧
    ((∀ l ∈ a, negLit l ∉ b) → resolve a b = none) ∧
    (∀ l₁ l₂, l₁ ∈ a → l₂ ∈ a → l₁ ≠ l₂ → negLit l₁ ∈ b → negLit l₂ ∈ b →
      resolve a b = none) := by
  refine ⟨?_, ?_, ?_⟩
  · intro l h1 h2 h3
    refine ⟨(a.erase l) ∪ (b.erase (negLit l)), resolve_some_backward ha h1 h2 h3, ?_⟩
    intro x
    rw [List.mem_union_iff, ha.mem_erase_iff, hb.mem_erase_iff]
    tauto
  · intro h
    have hfe : a.filter (fun x => decide (negLit x ∈ b)) = [] := by
      rw [List.filter_eq_nil_iff]
      intro x hx
      simpa using h x hx
    unfold resolve
    rw [hfe]
  · intro l₁ l₂ h₁ h₂ hne hb₁ hb₂
    rcases hfe : a.filter (fun x => decide (negLit x ∈ b)) with _ | ⟨x, _ | ⟨y, t⟩⟩
    · unfold resolve
      rw [hfe]
    · exfalso
      have m₁ : l₁ ∈ a.filter (fun x => decide (negLit x ∈ b)) :=
        List.mem_filter.2 ⟨h₁, by simpa using hb₁⟩
      have m₂ : l₂ ∈ a.filter (fun x => decide (negLit x ∈ b)) :=
        List.mem_filter.2 ⟨h₂, by simpa using hb₂⟩
      rw [hfe] at m₁ m₂
      simp at m₁ m₂
      exact hne (m₁.trans m₂.symm)
    · unfold resolve
      rw [hfe]

/-- Witness for `resolve_characterization`: the claim's examples
`resolve({A,B}, {¬A,C}) = {B,C}` and `resolve({A,B}, {¬A,¬B}) = none` for
`A = (0,0,mine)`, `B = (1,1,mine)`, `C = (2,2,mine)`. -/
theorem resolve_characterization_witness :
    (∃ r, resolve [(0, 0, true), (1, 1, true)] [negLit (0, 0, true), (2, 2, true)] = some r ∧
      ∀ x, x ∈ r ↔
        (x ∈ ([(0, 0, true), (1, 1, true)] : Clause) ∧ x ≠ (0, 0, true)) ∨
        (x ∈ ([negLit (0, 0, true), (2, 2, true)] : Clause) ∧ x ≠ negLit (0, 0, true))) ∧
    resolve [(0, 0, true), (1, 1, true)] [negLit (0, 0, true), negLit (1, 1, true)] = none :=
  ⟨(resolve_characterization [(0, 0, true), (1, 1, true)] [negLit (0, 0, true), (2, 2, true)]
      (by decide) (by decide)).1 (0, 0, true) (by decide) (by decide) (by decide),
   (resolve_characterization [(0, 0, true), (1, 1, true)]
      [negLit (0, 0, true), negLit (1, 1, true)] (by decide) (by decide)).2.2
      (0, 0, true) (1, 1, true) (by decide) (by decide) (by decide) (by decide) (by decide)⟩

/-- Half of the symmetry of resolution: a successful resolution one way makes
the flipped resolution succeed. -/
theorem resolve_isSome_flip {a b : Clause} (hb : b.Nodup) (h : (resolve a b).isSome) :
    (resolve b a).isSome := by
  obtain ⟨r, hr⟩ := Option.isSome_iff_exists.1 h
  obtain ⟨l, h1, h2, h3, _⟩ := resolve_some_forward hr
  have h3' : ∀ x ∈ b, negLit x ∈ a → x = negLit l := by
    intro x hx hax
    have hxl := h3 (negLit x) hax (by rwa [negLit_negLit])
    rw [← hxl, negLit_negLit]
  rw [resolve_some_backward hb h2 (by rwa [negLit_negLit]) h3']
  rfl

/-- **C10.**  Symmetry of resolution: for clauses free of internal
complementary pairs, `resolve a b` succeeds iff `resolve b a` does, and the
two resolvents contain exactly the same literals. -/
theorem resolve_symm (a b : Clause) (ha : a.Nodup) (hb : b.Nodup)
    (_hta : ∀ l ∈ a, negLit l ∉ a) (_htb : ∀ l ∈ b, negLit l ∉ b) :
    ((resolve a b).isSome ↔ (resolve b a).isSome) ∧
    (∀ r r', resolve a b = some r → resolve b a = some r' →
      (∀ x, x ∈ r ↔ x ∈ r')) := by
  refine ⟨⟨resolve_isSome_flip hb, resolve_isSome_flip ha⟩, ?_⟩
  intro r r' hr hr'
  obtain ⟨l, h1, h2, h3, hre⟩ := resolve_some_forward hr
  obtain ⟨l₂, g1, g2, g3, hre'⟩ := resolve_some_forward hr'
  have hl₂ : l₂ = negLit l := by
    have hxl := h3 (negLit l₂) g2 (by rwa [negLit_negLit])
    rw [← hxl, negLit_negLit]
  subst hre hre' hl₂
  intro x
  rw [List.mem_union_iff, List.mem_union_iff, negLit_negLit]
  exact Or.comm

/-- Witness for `resolve_symm` at `a = {A, B}`, `b = {¬A, C}` (`A,B,C` as in
the resolution example): both resolutions succeed and the resolvents
`{B, C}` and `{C, B}` hold the same literals. -/
theorem resolve_symm_witness :
    ((resolve [(0, 0, true), (1, 1, true)] [(0, 0, false), (2, 2, true)]).isSome ↔
      (resolve [(0, 0, false), (2, 2, true)] [(0, 0, true), (1, 1, true)]).isSome) ∧
    (∀ x, x ∈ ([(1, 1, true), (2, 2, true)] : Clause) ↔
      x ∈ ([(2, 2, true), (1, 1, true)] : Clause)) :=
  ⟨(resolve_symm [(0, 0, true), (1, 1, true)] [(0, 0, false), (2, 2, true)]
      (by decide) (by decide) (by decide) (by decide)).1,
   (resolve_symm [(0, 0, true), (1, 1, true)] [(0, 0, false), (2, 2, true)]
      (by decide) (by decide) (by decide) (by decide)).2
      [(1, 1, true), (2, 2, true)] [(2, 2, true), (1, 1, true)] (by decide) (by decide)⟩

/-! ### Further structural lemmas -/

theorem subsumption_checking_none_iff {c d : Clause} :
    subsumption_checking c d = none ↔ ¬clsub c d ∧ ¬clsub d c := by
  unfold subsumption_checking
  split
  · rename_i h
    simp [h]
  · split
    · rename_i h1 h2
      simp [h1, h2]
    · rename_i h1 h2
      simp [h1, h2]

/-- A scan reporting no match has seen only incomparable clauses or skipped
falsy empty subsumption results. -/
theorem scanKB_noMatch {c : Clause} {KB : List Clause} (h : scanKB c KB = .noMatch) :
    ∀ d ∈ KB, subsumption_checking c d = none ∨ subsumption_checking c d = some [] := by
  induction KB with
  | nil => simp
  | cons d' t ih =>
    unfold scanKB at h
    split at h
    · rename_i hsc
      intro d hd
      rcases List.mem_cons.1 hd with rfl | hd
      · exact Or.inl hsc
      · exact ih h d hd
    · rename_i e hsc
      split at h
      · rename_i he0
        intro d hd
        rcases List.mem_cons.1 hd with rfl | hd
        · rw [hsc, he0]
          exact Or.inr rfl
        · exact ih h d hd
      · split at h <;> cases h

/-- The identical-clause check of `insert_clause_to_KB`: a clause already in
KB or KB0 makes the whole call a no-op. -/
theorem insert_of_mem {s : KBState} {c : Clause} (h : c ∈ s.KB ∨ c ∈ s.KB0) :
    insert_clause_to_KB s c = s := by
  unfold insert_clause_to_KB
  rw [if_pos h]

/-- With an empty committed ledger, unit propagation of a non-unit clause
leaves KB unchanged. -/
theorem unit_propagation_empty_kb0 {KB : List Clause} {c : Clause}
    (h : ∀ L, c ≠ [L]) : unit_propagation KB [] c = KB := by
  cases c with
  | nil => rfl
  | cons a t =>
    cases t with
    | nil => exact absurd rfl (h a)
    | cons b t' => rfl

/-- Unit propagation of `[L]` is a no-op on a KB whose clauses mention
neither `L` nor its complement. -/
theorem unit_propagation_single_eq {KB KB0 : List Clause} {L : Lit}
    (h : ∀ x ∈ KB, L ∉ x ∧ negLit L ∉ x) :
    unit_propagation KB KB0 [L] = KB := by
  have hkeep : KB.filter (fun d => decide (L ∉ d ∧ negLit L ∉ d)) = KB :=
    List.filter_eq_self.2 fun d hd => by simpa using h d hd
  have hadds : KB.filter (fun d => decide (L ∉ d ∧ negLit L ∈ d)) = [] := by
    rw [List.filter_eq_nil_iff]
    intro d hd hpd
    simp only [decide_eq_true_eq] at hpd
    exact (h d hd).2 hpd.2
  rw [show unit_propagation KB KB0 [L]
      = pyAddAll (KB.filter (fun d => decide (L ∉ d ∧ negLit L ∉ d)))
        ((KB.filter (fun d => decide (L ∉ d ∧ negLit L ∈ d))).map (shortenBy L)) from rfl,
    hkeep, hadds]
  rfl

/-- **C1, amended.**  Minimality is not invariant (see
`minimality_fails_on_reachable_state`); what the subsumption step does
guarantee: an insert of a non-unit clause with an empty committed ledger
preserves subsumption-minimality provided no stored clause is a subset of
the incoming clause and at most one stored clause is a superset of it.
(Unit propagation, or a second superset beyond the first that the scan
removes, are exactly the ways the invariant breaks.) -/
theorem insert_preserves_minimality_cases (s : KBState) (c : Clause)
    (h0 : s.KB0 = []) (hnodup : s.KB.Nodup)
    (hmin : StrictSupersetFree s.KB)
    (hlen : 2 ≤ c.length)
    (hnsub : ∀ d ∈ s.KB, ¬clsub d c)
    (hsup : ∀ d ∈ s.KB, ∀ e ∈ s.KB, clsub c d → clsub c e → d = e) :
    StrictSupersetFree (insert_clause_to_KB s c).KB := by
  obtain ⟨a, b, t, rfl⟩ : ∃ a b t, c = a :: b :: t := by
    cases c with
    | nil => simp at hlen
    | cons a t =>
      cases t with
      | nil => simp at hlen
      | cons b t' => exact ⟨a, b, t', rfl⟩
  have hcKB : (a :: b :: t) ∉ s.KB := fun hmem => hnsub _ hmem (clsub_refl _)
  have hne : ¬((a :: b :: t) ∈ s.KB ∨ (a :: b :: t) ∈ s.KB0) := by
    rw [h0]
    simp [hcKB]
  rw [insert_spec s _ hne, h0]
  rw [show unit_propagation s.KB [] (a :: b :: t) = s.KB from rfl,
    show resolveWithKB0 (a :: b :: t) [] = a :: b :: t from rfl]
  rcases scanKB_cases s.KB (by simp) hnsub with ⟨hscan, hnosup⟩ | ⟨d₀, hd₀, hscan, hsub⟩
  · rw [hscan]
    show StrictSupersetFree (pyAdd s.KB (a :: b :: t))
    intro x hx y hy
    rw [mem_pyAdd] at hx hy
    rcases hx with hx | rfl <;> rcases hy with hy | rfl
    · exact hmin x hx y hy
    · rintro ⟨h1, _⟩
      exact hnsub x hx h1
    · rintro ⟨h1, _⟩
      exact hnosup y hy h1
    · rintro ⟨_, h2⟩
      exact h2 (clsub_refl _)
  · rw [hscan]
    show StrictSupersetFree (pyAdd (s.KB.erase d₀) (a :: b :: t))
    intro x hx y hy
    rw [mem_pyAdd] at hx hy
    rcases hx with hx | rfl <;> rcases hy with hy | rfl
    · exact hmin x (List.mem_of_mem_erase hx) y (List.mem_of_mem_erase hy)
    · rintro ⟨h1, _⟩
      exact hnsub x (List.mem_of_mem_erase hx) h1
    · rintro ⟨h1, _⟩
      have hyd : y = d₀ := hsup y (List.mem_of_mem_erase hy) d₀ hd₀ h1 hsub
      rw [List.Nodup.mem_erase_iff hnodup] at hy
      exact hy.1 hyd
    · rintro ⟨_, h2⟩
      exact h2 (clsub_refl _)

/-- Witness for `insert_preserves_minimality_cases`: inserting
`{(3,3,mine), (4,4,mine)}` into the one-clause KB
`{{(3,3,mine), (4,4,mine), (5,5,mine)}}` removes the lone superset and
leaves a minimal KB. -/
theorem insert_preserves_minimality_cases_witness :
    StrictSupersetFree (insert_clause_to_KB
      ⟨[[(3, 3, true), (4, 4, true), (5, 5, true)]], []⟩
      [(3, 3, true), (4, 4, true)]).KB :=
  insert_preserves_minimality_cases ⟨[[(3, 3, true), (4, 4, true), (5, 5, true)]], []⟩
    [(3, 3, true), (4, 4, true)] rfl (by decide) (by decide) (by decide)
    (by decide) (by decide)

/-- **C6, amended.**  A multi-literal clause containing the literal of a
committed fact is *not* discarded: the match merely terminates the KB0
ground-truth scan early.  With the single committed fact `{f}`, `f ∈ c`, and
no stored clause subsuming `c`, the clause `c` itself ends up in KB. -/
theorem committed_fact_match_only_breaks_scan (s : KBState) (c : Clause) (f : Lit)
    (h0 : s.KB0 = [[f]]) (hf : f ∈ c) (hnf : negLit f ∉ c)
    (hlen : 2 ≤ c.length)
    (hnsub : ∀ d ∈ s.KB, ¬clsub d c) :
    c ∈ (insert_clause_to_KB s c).KB := by
  obtain ⟨a, b, t, rfl⟩ : ∃ a b t, c = a :: b :: t := by
    cases c with
    | nil => simp at hlen
    | cons a t =>
      cases t with
      | nil => simp at hlen
      | cons b t' => exact ⟨a, b, t', rfl⟩
  have hcKB : (a :: b :: t) ∉ s.KB := fun hmem => hnsub _ hmem (clsub_refl _)
  have hcKB0 : (a :: b :: t) ∉ s.KB0 := by
    rw [h0]
    simp
  have hne : ¬((a :: b :: t) ∈ s.KB ∨ (a :: b :: t) ∈ s.KB0) := by
    simp [hcKB, hcKB0]
  have e1 : unit_propagation s.KB [[f]] (a :: b :: t) = s.KB := by
    rw [unit_propagation_multi]
    have hadds : kb0ScanAdds (a :: b :: t) [[f]] = [] := by
      have hstep : kb0ScanAdds (a :: b :: t) [[f]]
          = if f ∈ a :: b :: t then []
            else if negLit f ∈ a :: b :: t then
              shortenBy f (a :: b :: t) :: kb0ScanAdds (a :: b :: t) []
            else kb0ScanAdds (a :: b :: t) [] := rfl
      rw [hstep, if_pos hf]
    rw [hadds]
    rfl
  have e2 : resolveWithKB0 (a :: b :: t) [[f]] = a :: b :: t := by
    have hfe : (a :: b :: t).filter (fun l => decide (negLit l ∈ [f])) = [] := by
      rw [List.filter_eq_nil_iff]
      intro x hx hpx
      simp only [List.mem_singleton, decide_eq_true_eq] at hpx
      apply hnf
      rw [← hpx, negLit_negLit]
      exact hx
    have hres : resolve (a :: b :: t) [f] = none := by
      unfold resolve
      rw [hfe]
    unfold resolveWithKB0
    rw [hres]
  rw [insert_spec s _ hne, h0, e1, e2]
  rcases scanKB_cases s.KB (by simp) hnsub with ⟨hscan, _⟩ | ⟨d₀, _, hscan, _⟩
  · rw [hscan]
    show (a :: b :: t) ∈ pyAdd s.KB (a :: b :: t)
    exact mem_pyAdd.2 (Or.inr rfl)
  · rw [hscan]
    show (a :: b :: t) ∈ pyAdd (s.KB.erase d₀) (a :: b :: t)
    exact mem_pyAdd.2 (Or.inr rfl)

/-- Witness for `committed_fact_match_only_breaks_scan`: committed fact
`{(0,0,mine)}`, KB holding an unrelated clause, incoming clause
`{(0,0,mine), (1,1,mine)}` still lands in KB. -/
theorem committed_fact_match_only_breaks_scan_witness :
    [(0, 0, true), (1, 1, true)] ∈ (insert_clause_to_KB
      ⟨[[(5, 5, true), (6, 6, true)]], [[(0, 0, true)]]⟩
      [(0, 0, true), (1, 1, true)]).KB :=
  committed_fact_match_only_breaks_scan
    ⟨[[(5, 5, true), (6, 6, true)]], [[(0, 0, true)]]⟩
    [(0, 0, true), (1, 1, true)] (0, 0, true) rfl (by decide) (by decide)
    (by decide) (by decide)

/-- **C7, amended.**  When an existing clause of the *post-propagation* KB is
a subset of the final (resolved) incoming clause, no stored clause is a
strict superset of that final clause, and no stored clause is empty (a
stored empty clause is a falsy subsumption result that the scan skips), the
subsumption phase adds and removes nothing: the resulting KB has exactly the
members of the post-unit-propagation KB.  The unit-propagation and
ground-truth-resolution mutations performed earlier in the same call persist
(`reject_leaves_kb_mutated`): the operation is not atomic on KB. -/
theorem reject_keeps_post_propagation_kb (s : KBState) (c : Clause)
    (hcKB : c ∉ s.KB) (hcKB0 : c ∉ s.KB0)
    (hne0 : [] ∉ unit_propagation s.KB s.KB0 c)
    (hns : ∀ d ∈ unit_propagation s.KB s.KB0 c,
      clsub (resolveWithKB0 c s.KB0) d → d = resolveWithKB0 c s.KB0)
    (hex : ∃ d ∈ unit_propagation s.KB s.KB0 c, clsub d (resolveWithKB0 c s.KB0)) :
    ∀ x, x ∈ (insert_clause_to_KB s c).KB ↔ x ∈ unit_propagation s.KB s.KB0 c := by
  have hne : ¬(c ∈ s.KB ∨ c ∈ s.KB0) := by simp [hcKB, hcKB0]
  rw [insert_spec s c hne]
  cases hscan : scanKB (resolveWithKB0 c s.KB0) (unit_propagation s.KB s.KB0 c) with
  | noMatch =>
    exfalso
    obtain ⟨d, hd, hsub⟩ := hex
    rcases scanKB_noMatch hscan d hd with hnone | hsome
    · rw [subsumption_checking_none_iff] at hnone
      exact hnone.2 hsub
    · rcases subsumption_checking_some hsome with ⟨_, h2⟩ | ⟨_, _, h3⟩
      · have hdnil : d = [] := by
          cases d with
          | nil => rfl
          | cons a t =>
            exfalso
            have ha : a ∈ resolveWithKB0 c s.KB0 := hsub a (by simp)
            rw [← h2] at ha
            cases ha
        subst hdnil
        exact hne0 hd
      · subst h3
        exact hne0 hd
  | reject =>
    intro x
    rfl
  | remove d =>
    obtain ⟨hd, hsub⟩ := scanKB_remove hscan
    have hdc : d = resolveWithKB0 c s.KB0 := hns d hd hsub
    intro x
    show x ∈ pyAdd ((unit_propagation s.KB s.KB0 c).erase d) (resolveWithKB0 c s.KB0) ↔ _
    rw [← hdc, mem_pyAdd]
    constructor
    · rintro (hx | rfl)
      · exact List.mem_of_mem_erase hx
      · exact hd
    · intro hx
      by_cases hxd : x = d
      · exact Or.inr hxd
      · exact Or.inl ((List.mem_erase_of_ne hxd).2 hx)

/-- Witness for `reject_keeps_post_propagation_kb`, on the states of
`reject_leaves_kb_mutated`: the rejected insert keeps exactly the
post-propagation KB, as sampled at the propagation-added clause
`{(5,5,mine), (6,6,mine)}` and at the empty clause. -/
theorem reject_keeps_post_propagation_kb_witness :
    ([(5, 5, true), (6, 6, true)]
        ∈ (insert_clause_to_KB ⟨[[(5, 5, true)]], [[(9, 9, true)]]⟩
            [(9, 9, false), (5, 5, true), (6, 6, true)]).KB ↔
      [(5, 5, true), (6, 6, true)]
        ∈ unit_propagation [[(5, 5, true)]] [[(9, 9, true)]]
            [(9, 9, false), (5, 5, true), (6, 6, true)]) ∧
    (([] : Clause)
        ∈ (insert_clause_to_KB ⟨[[(5, 5, true)]], [[(9, 9, true)]]⟩
            [(9, 9, false), (5, 5, true), (6, 6, true)]).KB ↔
      ([] : Clause)
        ∈ unit_propagation [[(5, 5, true)]] [[(9, 9, true)]]
            [(9, 9, false), (5, 5, true), (6, 6, true)]) :=
  ⟨reject_keeps_post_propagation_kb ⟨[[(5, 5, true)]], [[(9, 9, true)]]⟩
      [(9, 9, false), (5, 5, true), (6, 6, true)] (by decide) (by decide)
      (by decide) (by decide) (by decide) [(5, 5, true), (6, 6, true)],
   reject_keeps_post_propagation_kb ⟨[[(5, 5, true)]], [[(9, 9, true)]]⟩
      [(9, 9, false), (5, 5, true), (6, 6, true)] (by decide) (by decide)
      (by decide) (by decide) (by decide) []⟩

/-- **C8, amended.**  Part 1 of the claim holds in general: inserting a
clause identical to one already in KB or KB0 is a no-op (and `KB0` is never
mutated by an insert, `insert_KB0_unchanged`).  Part 2 (double insertion
equals single insertion) holds with an empty committed ledger; with committed
facts present the KB0-resolution can rename the working clause so that the
re-insert escapes the identical-clause check and mutates KB again
(`insert_twice_differs_from_once`). -/
theorem insert_idempotent_cases (s : KBState) (c : Clause) :
    ((c ∈ s.KB ∨ c ∈ s.KB0) → insert_clause_to_KB s c = s) ∧
    (s.KB0 = [] →
      insert_clause_to_KB (insert_clause_to_KB s c) c = insert_clause_to_KB s c) := by
  constructor
  · exact insert_of_mem
  · intro h0
    obtain ⟨KB, KB0⟩ := s
    simp only at h0
    subst h0
    by_cases hc : c ∈ KB
    · have h1 : insert_clause_to_KB ⟨KB, []⟩ c = ⟨KB, []⟩ :=
        insert_of_mem (Or.inl hc)
      simp only [h1]
    · have hne : ¬(c ∈ KB ∨ c ∈ ([] : List Clause)) := by simp [hc]
      by_cases hsing : ∃ L, c = [L]
      · obtain ⟨L, rfl⟩ := hsing
        have hnoL : ∀ x ∈ unit_propagation KB [] [L], L ∉ x ∧ negLit L ∉ x := by
          intro x hx
          rcases mem_unit_propagation_single.1 hx with ⟨_, h2, h3⟩ | ⟨d, _, hd2, _, rfl⟩
          · exact ⟨h2, h3⟩
          · constructor
            · exact fun hLx => hd2 (mem_shortenBy.1 hLx).1
            · exact fun hLx => (mem_shortenBy.1 hLx).2 rfl
        have hLKB1 : [L] ∉ unit_propagation KB [] [L] :=
          fun hmem => (hnoL _ hmem).1 (by simp)
        have hs1 := insert_spec ⟨KB, []⟩ [L] hne
        dsimp only at hs1
        rw [show resolveWithKB0 [L] ([] : List Clause) = [L] from rfl] at hs1
        cases hscan : scanKB [L] (unit_propagation KB [] [L]) with
        | remove d =>
          exfalso
          obtain ⟨hd, hsub⟩ := scanKB_remove hscan
          exact (hnoL d hd).1 (hsub L (by simp))
        | reject =>
          rw [hscan] at hs1
          dsimp only at hs1
          rw [hs1]
          have hne2 : ¬([L] ∈ unit_propagation KB [] [L] ∨ [L] ∈ ([] : List Clause)) := by
            simp [hLKB1]
          have hs2 := insert_spec ⟨unit_propagation KB [] [L], []⟩ [L] hne2
          dsimp only at hs2
          rw [unit_propagation_single_eq hnoL,
            show resolveWithKB0 [L] ([] : List Clause) = [L] from rfl, hscan] at hs2
          exact hs2
        | noMatch =>
          rw [hscan] at hs1
          dsimp only at hs1
          rw [hs1]
          exact insert_of_mem (Or.inl (mem_pyAdd.2 (Or.inr rfl)))
      · have hshape : ∀ L, c ≠ [L] := fun L hL => hsing ⟨L, hL⟩
        have e1 : unit_propagation KB [] c = KB := unit_propagation_empty_kb0 hshape
        have hs1 := insert_spec ⟨KB, []⟩ c hne
        dsimp only at hs1
        rw [e1, show resolveWithKB0 c [] = c from rfl] at hs1
        cases hscan : scanKB c KB with
        | reject =>
          rw [hscan] at hs1
          dsimp only at hs1
          simp only [hs1]
        | remove d =>
          rw [hscan] at hs1
          dsimp only at hs1
          rw [hs1]
          exact insert_of_mem (Or.inl (mem_pyAdd.2 (Or.inr rfl)))
        | noMatch =>
          rw [hscan] at hs1
          dsimp only at hs1
          rw [hs1]
          exact insert_of_mem (Or.inl (mem_pyAdd.2 (Or.inr rfl)))

/-- Witness for `insert_idempotent_cases`: a clause already present is a
no-op, and with empty KB0 a double insert equals a single insert. -/
theorem insert_idempotent_cases_witness :
    insert_clause_to_KB ⟨[[(0, 0, true)]], []⟩ [(0, 0, true)] = ⟨[[(0, 0, true)]], []⟩ ∧
    insert_clause_to_KB (insert_clause_to_KB ⟨[[(0, 0, true)]], []⟩ [(1, 1, true), (2, 2, true)])
        [(1, 1, true), (2, 2, true)]
      = insert_clause_to_KB ⟨[[(0, 0, true)]], []⟩ [(1, 1, true), (2, 2, true)] :=
  ⟨(insert_idempotent_cases ⟨[[(0, 0, true)]], []⟩ [(0, 0, true)]).1 (Or.inl (by decide)),
   (insert_idempotent_cases ⟨[[(0, 0, true)]], []⟩ [(1, 1, true), (2, 2, true)]).2 rfl⟩

/-- **C9, amended.**  The empty clause is reachable (`empty_clause_reachable`):
inserting the unit `{L}` while the unit `{¬L}` sits in KB stores the
zero-literal clause.  What holds instead: an insert preserves "every KB clause
is nonempty" whenever the inserted clause is nonempty and duplicate-free and —
when it is a unit `{L}` — no KB clause consists solely of the complement
`¬L`. -/
theorem no_empty_clause_unless_contradictory_unit (s : KBState) (c : Clause)
    (hKB : ∀ d ∈ s.KB, d ≠ []) (hc : c ≠ []) (hcnd : c.Nodup)
    (hunit : ∀ L, c = [L] → ∀ d ∈ s.KB, negLit L ∈ d → ¬clsub d [negLit L]) :
    ∀ d ∈ (insert_clause_to_KB s c).KB, d ≠ [] := by
  by_cases hmem : c ∈ s.KB ∨ c ∈ s.KB0
  · rw [insert_of_mem hmem]
    exact hKB
  · have hKB1 : ∀ x ∈ unit_propagation s.KB s.KB0 c, x ≠ [] := by
      cases c with
      | nil => exact absurd rfl hc
      | cons a t =>
        cases t with
        | nil =>
          intro x hx
          rcases mem_unit_propagation_single.1 hx with ⟨hxKB, _, _⟩ | ⟨d, hd, _, hnegmem, rfl⟩
          · exact hKB x hxKB
          · have hnc := hunit a rfl d hd hnegmem
            simp only [clsub] at hnc
            push_neg at hnc
            obtain ⟨y, hy, hyne⟩ := hnc
            intro hxe
            have hymem : y ∈ shortenBy a d := mem_shortenBy.2 ⟨hy, by simpa using hyne⟩
            rw [hxe] at hymem
            cases hymem
        | cons b t' =>
          intro x hx
          rw [unit_propagation_multi, mem_pyAddAll] at hx
          rcases hx with hx | hx
          · exact hKB x hx
          · obtain ⟨f, _, rfl⟩ := kb0ScanAdds_shape x hx
            intro hxe
            have hane : a ≠ b := by
              have hn := List.nodup_cons.1 hcnd
              exact fun hab => hn.1 (hab ▸ List.mem_cons_self b t')
            have hall : ∀ y ∈ (a :: b :: t' : Clause), y = negLit f := by
              intro y hy
              by_contra hyne
              have hymem : y ∈ shortenBy f (a :: b :: t') := mem_shortenBy.2 ⟨hy, hyne⟩
              rw [hxe] at hymem
              cases hymem
            exact hane ((hall a (by simp)).trans (hall b (by simp)).symm)
    have hcne : resolveWithKB0 c s.KB0 ≠ [] := resolveWithKB0_ne_nil hc
    rw [insert_spec s c hmem]
    cases hscan : scanKB (resolveWithKB0 c s.KB0) (unit_propagation s.KB s.KB0 c) with
    | reject => exact hKB1
    | remove d =>
      intro x hx
      rcases mem_pyAdd.1 hx with hx' | rfl
      · exact hKB1 x (List.mem_of_mem_erase hx')
      · exact hcne
    | noMatch =>
      intro x hx
      rcases mem_pyAdd.1 hx with hx' | rfl
      · exact hKB1 x hx'
      · exact hcne

/-- Witness for `no_empty_clause_unless_contradictory_unit`: inserting the
unit `{(0,0,mine)}` into `{{(0,0,safe), (1,1,mine)}}` shortens the stored
clause to `{(1,1,mine)}`, and both resulting clauses are nonempty. -/
theorem no_empty_clause_unless_contradictory_unit_witness :
    (insert_clause_to_KB ⟨[[(0, 0, false), (1, 1, true)]], []⟩ [(0, 0, true)]).KB
        = [[(1, 1, true)], [(0, 0, true)]] ∧
    ([(1, 1, true)] : Clause) ≠ [] ∧ ([(0, 0, true)] : Clause) ≠ [] :=
  ⟨by decide,
   no_empty_clause_unless_contradictory_unit ⟨[[(0, 0, false), (1, 1, true)]], []⟩
     [(0, 0, true)] (by decide) (by decide) (by decide)
     (by
       rintro L hL
       injection hL with h1 _
       subst h1
       decide)
     [(1, 1, true)] (by decide),
   no_empty_clause_unless_contradictory_unit ⟨[[(0, 0, false), (1, 1, true)]], []⟩
     [(0, 0, true)] (by decide) (by decide) (by decide)
     (by
       rintro L hL
       injection hL with h1 _
       subst h1
       decide)
     [(0, 0, true)] (by decide)⟩
